import Mathlib

/-!
Verification of the Voicebill voice-billing application (`app8.py`).

Strings are modelled as `List Char`; Python `str` operations (`lower`,
`strip`, regex `\d`, `\s`, `[a-z]`) are modelled over their ASCII behaviour.
Prices (Python floats) are modelled as exact rationals `ℚ`.
-/

set_option autoImplicit false

namespace VoiceBill

/-- ASCII model of the whitespace class recognised by Python's `strip` and
regex `\s`. -/
def isSpace (c : Char) : Bool :=
  c = ' ' || c = '\t' || c = '\n' || c = '\r'

/-- Python `str.strip()`: drop whitespace from both ends. -/
def strip (s : List Char) : List Char :=
  ((s.dropWhile isSpace).reverse.dropWhile isSpace).reverse

/-- Python `str.lower()` (ASCII model). -/
def lowerAll (s : List Char) : List Char :=
  s.map Char.toLower

/-- `text.lower().strip()` as done by the consumer loop and the parser. -/
def normText (s : List Char) : List Char :=
  strip (lowerAll s)

/-- Lowercase ASCII letter, the regex class `[a-z]`. -/
def isLowerAlpha (c : Char) : Bool :=
  'a' ≤ c && c ≤ 'z'

/-- Python `int` on a string of decimal digits. -/
def digitsToNat (l : List Char) : Nat :=
  l.foldl (fun n c => 10 * n + (c.toNat - 48)) 0

/-- The quantity-word table `words_to_num` of `parse_quantity_and_item`. -/
def words_to_num (w : List Char) : Option Nat :=
  if w = "one".toList then some 1
  else if w = "two".toList then some 2
  else if w = "three".toList then some 3
  else if w = "four".toList then some 4
  else if w = "five".toList then some 5
  else if w = "six".toList then some 6
  else if w = "seven".toList then some 7
  else if w = "eight".toList then some 8
  else if w = "nine".toList then some 9
  else if w = "ten".toList then some 10
  else none

/-- Matching of `re.match(r'^\s*(TOK+)\s+(.+)$', text)` on an already
stripped `text`, where `TOK` is a character class.  Since `text` is
stripped, `\s*` matches nothing, the group `TOK+` is forced to be the
maximal leading `TOK` run (the character after it must be whitespace), and
`(.+)$` succeeds exactly when the remainder after the whitespace run is
nonempty and newline-free (`.` does not match a newline and `$` can only
match at the very end because a stripped string does not end in `'\n'`). -/
def pyLead (tok : Char → Bool) (text : List Char) : Option (List Char × List Char) :=
  if text.takeWhile tok ≠ [] ∧ (text.dropWhile tok).takeWhile isSpace ≠ [] ∧
      (text.dropWhile tok).dropWhile isSpace ≠ [] ∧
      (((text.dropWhile tok).dropWhile isSpace).all fun c => c ≠ '\n')
  then some (text.takeWhile tok, (text.dropWhile tok).dropWhile isSpace)
  else none

/-- `parse_quantity_and_item` from `app8.py`:
lowercase and strip, try a leading digit run, then a leading quantity word,
else default to quantity 1 with the whole text as the item phrase. -/
def parse_quantity_and_item (t : List Char) : Nat × List Char :=
  let text := strip (lowerAll t)
  match pyLead Char.isDigit text with
  | some (g1, g2) => (digitsToNat g1, strip g2)
  | none =>
    match pyLead isLowerAlpha text with
    | some (g1, g2) =>
      match words_to_num g1 with
      | some n => (n, strip g2)
      | none => (1, text)
    | none => (1, text)

/-- The first character, if any, is whitespace. -/
def headSpace : List Char → Bool
  | c :: _ => isSpace c
  | [] => false

/-- Spec-side predicate: the normalized text's leading token is a digit run
followed by whitespace. -/
def digitLead (t : List Char) : Bool :=
  !(t.takeWhile Char.isDigit).isEmpty && headSpace (t.dropWhile Char.isDigit)

/-- Spec-side predicate: the normalized text's leading token is one of the
quantity words `one`..`ten` followed by whitespace. -/
def qwordLead (t : List Char) : Bool :=
  (words_to_num (t.takeWhile isLowerAlpha)).isSome && headSpace (t.dropWhile isLowerAlpha)

/-!
Model of `difflib.SequenceMatcher` (CPython) as used by
`difflib.get_close_matches(word, possibilities, n=1, cutoff)`, which
`fuzzy_lookup` calls.  The matcher is created with `isjunk = None`, so the
junk set `bjunk` is empty and the two junk-extension loops of
`find_longest_match` never run; the `autojunk` heuristic on the second
sequence is modelled by `popularChar`.
-/

/-- `autojunk` of `SequenceMatcher.__chain_b`: when `b` has at least 200
elements, characters occurring more than `len(b) // 100 + 1` times are
dropped from the index table. -/
def popularChar (b : List Char) (c : Char) : Bool :=
  200 ≤ b.length && b.length / 100 + 1 < b.count c

/-- The `b2j` index table: ascending positions of `c` in `b`, with popular
characters removed. -/
def b2j (b : List Char) (c : Char) : List Nat :=
  if popularChar b c then []
  else (List.range b.length).filter fun j => b.getD j ' ' = c

/-- Inner loop of `find_longest_match` over the ascending index list
`b2j[a[i]]`: `j < blo` is skipped, `j ≥ bhi` breaks, otherwise
`newj2len[j] = j2len[j-1] + 1` (0 when `j-1` is absent, in particular for
`j = 0`) and the best block is updated on a strictly larger size. -/
def innerLoop (j2len : Nat → Nat) (blo bhi i : Nat) :
    List Nat → (Nat → Nat) → (Nat × Nat × Nat) → ((Nat → Nat) × (Nat × Nat × Nat))
  | [], nj, best => (nj, best)
  | j :: js, nj, best =>
    if j < blo then innerLoop j2len blo bhi i js nj best
    else if bhi ≤ j then (nj, best)
    else
      let k := if j = 0 then 1 else j2len (j - 1) + 1
      let nj' : Nat → Nat := fun j' => if j' = j then k else nj j'
      let best' := if best.2.2 < k then (i + 1 - k, j + 1 - k, k) else best
      innerLoop j2len blo bhi i js nj' best'

/-- First extension loop of `find_longest_match` (the `not isbjunk`
condition is vacuously true since the junk set is empty), written with a
structural fuel equal to `besti`: the loop decrements `besti` once per
iteration and stops at the latest when `besti = 0 ≤ alo`, so the fuel-out
case coincides with the loop-exit case. -/
def extendLeftAux (a b : List Char) (alo blo : Nat) :
    Nat → Nat → Nat → Nat → Nat × Nat × Nat
  | 0, besti, bestj, bestsize => (besti, bestj, bestsize)
  | fuel + 1, besti, bestj, bestsize =>
    if alo < besti ∧ blo < bestj ∧ a.getD (besti - 1) ' ' = b.getD (bestj - 1) ' ' then
      extendLeftAux a b alo blo fuel (besti - 1) (bestj - 1) (bestsize + 1)
    else (besti, bestj, bestsize)

def extendLeft (a b : List Char) (alo blo besti bestj bestsize : Nat) :
    Nat × Nat × Nat :=
  extendLeftAux a b alo blo besti besti bestj bestsize

/-- Second extension loop of `find_longest_match`, with structural fuel
`ahi - (besti + bestsize)` (the loop increments `bestsize` while
`besti + bestsize < ahi`, so again fuel-out coincides with loop exit). -/
def extendRightAux (a b : List Char) (ahi bhi besti bestj : Nat) :
    Nat → Nat → Nat
  | 0, bestsize => bestsize
  | fuel + 1, bestsize =>
    if besti + bestsize < ahi ∧ bestj + bestsize < bhi ∧
        a.getD (besti + bestsize) ' ' = b.getD (bestj + bestsize) ' ' then
      extendRightAux a b ahi bhi besti bestj fuel (bestsize + 1)
    else bestsize

def extendRight (a b : List Char) (ahi bhi besti bestj bestsize : Nat) : Nat :=
  extendRightAux a b ahi bhi besti bestj (ahi - (besti + bestsize)) bestsize

/-- `SequenceMatcher.find_longest_match(alo, ahi, blo, bhi)` with an empty
junk set: dynamic programming over `b2j`, then the two non-junk extension
loops. -/
def findLongestMatch (a b : List Char) (alo ahi blo bhi : Nat) : Nat × Nat × Nat :=
  let dp := (List.range' alo (ahi - alo)).foldl
    (fun (st : (Nat → Nat) × (Nat × Nat × Nat)) i =>
      innerLoop st.1 blo bhi i (b2j b (a.getD i ' ')) (fun _ => 0) st.2)
    ((fun _ => 0), (alo, blo, 0))
  let e1 := extendLeft a b alo blo dp.2.1 dp.2.2.1 dp.2.2.2
  (e1.1, e1.2.1, extendRight a b ahi bhi e1.1 e1.2.1 e1.2.2)

/-- `SequenceMatcher.get_matching_blocks` restricted to the block triples
(the recursive region splitting; CPython's queue order and the merging of
adjacent blocks change neither the set of matched positions nor the total
matched size).  The fuel argument dominates the recursion depth; any fuel
at least `(ahi - alo) + (bhi - blo) + 1` is enough, since each recursive
call strictly shrinks the combined region size. -/
def matchingBlocks (a b : List Char) :
    Nat → Nat → Nat → Nat → Nat → List (Nat × Nat × Nat)
  | 0, _, _, _, _ => []
  | fuel + 1, alo, ahi, blo, bhi =>
    let m := findLongestMatch a b alo ahi blo bhi
    if m.2.2 = 0 then []
    else
      matchingBlocks a b fuel alo m.1 blo m.2.1 ++
        m :: matchingBlocks a b fuel (m.1 + m.2.2) ahi (m.2.1 + m.2.2) bhi

/-- Total number of matched elements between `a` and `b`. -/
def matchesTotal (a b : List Char) : Nat :=
  ((matchingBlocks a b (a.length + b.length + 1) 0 a.length 0 b.length).map
    fun t => t.2.2).sum

/-- `difflib._calculate_ratio`: the exact value `2 * m / len` (1 when
`len = 0`), built with `mkRat` so that it is kernel-computable. -/
def calcRatio (m len : Nat) : ℚ :=
  if len ≠ 0 then mkRat (2 * m) len else 1

/-- `SequenceMatcher.ratio()` with `a` as first and `b` as second sequence. -/
def simRatio (a b : List Char) : ℚ :=
  calcRatio (matchesTotal a b) (a.length + b.length)

/-- The matched count of `SequenceMatcher.quick_ratio()`: the multiset
intersection, computed by the `avail` loop of CPython. -/
def quickCount (a b : List Char) : Nat :=
  (a.foldl
    (fun (st : (Char → Option Int) × Nat) c =>
      let numb : Int := match st.1 c with
        | some v => v
        | none => (b.count c : Int)
      (fun c' => if c' = c then some (numb - 1) else st.1 c',
        if 0 < numb then st.2 + 1 else st.2))
    ((fun _ => none), 0)).2

/-- `SequenceMatcher.quick_ratio()`. -/
def quickRatio (a b : List Char) : ℚ :=
  calcRatio (quickCount a b) (a.length + b.length)

/-- `SequenceMatcher.real_quick_ratio()`. -/
def realQuickRatio (a b : List Char) : ℚ :=
  calcRatio (min a.length b.length) (a.length + b.length)

/-- Python string comparison (by code points, shorter prefix first). -/
def lexLt : List Char → List Char → Bool
  | [], [] => false
  | [], _ :: _ => true
  | _ :: _, [] => false
  | c :: cs, d :: ds => if c < d then true else if d < c then false else lexLt cs ds

/-- Python comparison of the `(score, key)` pairs that `get_close_matches`
hands to `heapq.nlargest`. -/
def pairLt (p q : ℚ × List Char) : Prop :=
  p.1 < q.1 ∨ (p.1 = q.1 ∧ lexLt p.2 q.2 = true)

instance (p q : ℚ × List Char) : Decidable (pairLt p q) := by
  unfold pairLt
  infer_instance

/-- `heapq.nlargest(1, result)`: `max` over the `(score, key)` pairs,
keeping the first of fully equal elements; `none` on the empty list. -/
def pickBest : List (ℚ × List Char) → Option (ℚ × List Char)
  | [] => none
  | p :: ps => some (ps.foldl (fun acc q => if pairLt acc q then q else acc) p)

/-- The filter of `get_close_matches`: a candidate key `x` survives when
`real_quick_ratio`, `quick_ratio` and `ratio` against `word` all reach the
cutoff, and is stored with its `ratio` score. -/
def closeCandidates (word : List Char) (possibilities : List (List Char))
    (cutoff : ℚ) : List (ℚ × List Char) :=
  possibilities.filterMap fun x =>
    if cutoff ≤ realQuickRatio x word ∧ cutoff ≤ quickRatio x word ∧
        cutoff ≤ simRatio x word
    then some (simRatio x word, x) else none

/-- `difflib.get_close_matches(word, possibilities, n=1, cutoff)`. -/
def getCloseMatches1 (word : List Char) (possibilities : List (List Char))
    (cutoff : ℚ) : List (List Char) :=
  match pickBest (closeCandidates word possibilities cutoff) with
  | some p => [p.2]
  | none => []

/-- The catalog `price_df`: an association list from normalized item name
to price, in column order of the loaded table (`item` index, `price`
values). -/
def Catalog : Type := List (List Char × ℚ)

/-- `list(price_df.index)`. -/
def catKeys (df : Catalog) : List (List Char) :=
  df.map fun e => e.1

/-- Membership test `item_text in price_df.index` together with
`float(price_df.loc[item_text, 'price'])`. -/
def lookupPrice (df : Catalog) (k : List Char) : Option ℚ :=
  match df with
  | [] => none
  | e :: es => if e.1 = k then some e.2 else lookupPrice es k

/-- `fuzzy_lookup(item_text, price_df, cutoff)` from `app8.py`: `None`
catalog short-circuits, exact index membership wins, otherwise the single
best close match above the cutoff, else no match.  The Python pair
`(None, None)` / `(name, price)` is modelled as an `Option` pair. -/
def fuzzy_lookup (item_text : List Char) (price_df : Option Catalog)
    (cutoff : ℚ) : Option (List Char × ℚ) :=
  match price_df with
  | none => none
  | some df =>
    let t := lowerAll (strip item_text)
    match lookupPrice df t with
    | some p => some (t, p)
    | none =>
      match getCloseMatches1 t (catKeys df) cutoff with
      | m :: _ => some (m, (lookupPrice df m).getD 0)
      | [] => none

/-!
Application state and the consumer / export operations of `app8.py`.
The threading fields (`is_listening`, `stop_event`, `speech_queue`) carry
no ledger data and are not modelled; timestamps, the generated file name
and the exception message are passed in as inputs.
-/

/-- One `(item, qty, rate, total)` tuple of `state.items`. -/
structure LineItem where
  itemName : List Char
  quantity : Nat
  unitRate : ℚ
  lineTotal : ℚ
  deriving DecidableEq

/-- The mutable fields of `AppState` that the consumer loop and the
export callback touch. -/
structure AppState where
  price_df : Option Catalog
  items : List LineItem
  logs : List (List Char)
  customer_name : List Char

/-- The `f"[{timestamp}] {text}"` log line. -/
def mkEntry (ts text : List Char) : List Char :=
  '[' :: (ts ++ (']' :: (' ' :: text)))

/-- `AppState.add_log`: append the timestamped line, then pop the oldest
entry if the buffer has grown past 20. -/
def add_log (ts text : List Char) (logs : List (List Char)) : List (List Char) :=
  let l := logs ++ [mkEntry ts text]
  if 20 < l.length then l.drop 1 else l

/-- `AppState.__init__`: empty ledger and log, sentinel customer name. -/
def initState (df : Option Catalog) : AppState :=
  { price_df := df, items := [], logs := [], customer_name := ("-").toList }

/-- Python `text.replace(pat, rep)` specialised to `pat = "name "`,
`rep = ""`: remove every non-overlapping occurrence, scanning left to
right.  Written with a structural fuel; one character of the input is
consumed per step, so fuel `s.length` is exact, and the fuel-out case
returns the remaining suffix unchanged, which also agrees with the
occurrence-free behaviour. -/
def removeNameAux : Nat → List Char → List Char
  | 0, s => s
  | fuel + 1, s =>
    match s with
    | [] => []
    | c :: rest =>
      if ("name ").toList.isPrefixOf s then removeNameAux fuel (s.drop 5)
      else c :: removeNameAux fuel rest

def removeNameOcc (s : List Char) : List Char :=
  removeNameAux s.length s

/-- One iteration of the queue-draining loop of `poll_updates` on one
utterance: lower/strip, name directive first, otherwise parse a quantity
and item phrase, require a loaded catalog, fuzzy-match and append a line
item on success; every branch logs one message. -/
def processUtterance (ts : List Char) (st : AppState) (raw : List Char) : AppState :=
  let text := strip (lowerAll raw)
  if ("name ").toList.isPrefixOf text then
    let nm := strip (removeNameOcc text)
    { st with customer_name := nm,
              logs := add_log ts (("Customer name set to ").toList ++ nm) st.logs }
  else
    let q := parse_quantity_and_item text
    match st.price_df with
    | none =>
      { st with logs := add_log ts ("Error: Price list not loaded!").toList st.logs }
    | some df =>
      match fuzzy_lookup q.2 (some df) (mkRat 3 5) with
      | some m =>
        { st with
            items := st.items ++ [⟨m.1, q.1, m.2, (q.1 : ℚ) * m.2⟩],
            logs := add_log ts
              (("Added: ").toList ++ (Nat.repr q.1).toList ++ (" x ").toList ++ m.1)
              st.logs }
      | none =>
        { st with logs := add_log ts (("Unknown item: ").toList ++ q.2) st.logs }

/-- Draining the whole queue: process the pending utterances in arrival
order, each paired with the timestamp its log entry would carry. -/
def runAll (st : AppState) (msgs : List (List Char × List Char)) : AppState :=
  msgs.foldl (fun s p => processUtterance p.1 s p.2) st

/-- `sum(x[3] for x in state.items)` as computed by `poll_updates` and
`generate_bill_pdf`. -/
def subtotal (items : List LineItem) : ℚ :=
  (items.map fun li => li.lineTotal).sum

/-- Outcome of the externally-performed export steps inside the `try`
block of `print_bill`: `generate_bill_pdf` raises (`genFail`), the
file-open call raises after a successful generation (`openFail`), or
everything succeeds (`ok`). -/
inductive ExportOutcome where
  | genFail
  | openFail
  | ok
  deriving DecidableEq

/-- `print_bill`: refuse an empty ledger with a log entry; otherwise
attempt the export, logging the failure and keeping all state on an
exception, and clearing items, logs and customer name on success.  The
returned `Bool` records whether a PDF document was produced. -/
def print_bill (ts fname emsg : List Char) (o : ExportOutcome) (st : AppState) :
    AppState × Bool :=
  if st.items = [] then
    ({ st with logs := add_log ts ("Cannot print empty bill.").toList st.logs }, false)
  else
    match o with
    | ExportOutcome.genFail =>
      ({ st with logs := add_log ts (("Print error: ").toList ++ emsg) st.logs }, false)
    | ExportOutcome.openFail =>
      ({ st with
          logs := add_log ts (("Print error: ").toList ++ emsg)
            (add_log ts (("PDF Generated: ").toList ++ fname) st.logs) }, true)
    | ExportOutcome.ok =>
      ({ st with items := [], logs := [], customer_name := ("-").toList }, true)

/-- Spec-side predicate for the C1 analysis: the text contains an
occurrence of `"name "` at some position. -/
def hasNameOcc : List Char → Bool
  | [] => false
  | c :: rest => ("name ").toList.isPrefixOf (c :: rest) || hasNameOcc rest

end VoiceBill

namespace VoiceBill

/-! ### Helper lemmas about the parser -/

theorem takeWhile_space_ne_nil (l : List Char) :
    l.takeWhile isSpace ≠ [] ↔ headSpace l = true := by
  cases l with
  | nil => simp [headSpace, List.takeWhile]
  | cons c cs =>
    by_cases h : isSpace c <;> simp [headSpace, List.takeWhile_cons, h]

theorem pyLead_some (tok : Char → Bool) (text g1 g2 : List Char)
    (h : pyLead tok text = some (g1, g2)) :
    g1 = text.takeWhile tok ∧ g1 ≠ [] ∧
      headSpace (text.dropWhile tok) = true ∧
      g2 = (text.dropWhile tok).dropWhile isSpace := by
  unfold pyLead at h
  split at h
  case isTrue hc =>
    injection h with h'
    cases h'
    exact ⟨rfl, hc.1, (takeWhile_space_ne_nil _).mp hc.2.1, rfl⟩
  case isFalse => cases h

theorem pyLead_none_of_digitLead (text : List Char)
    (h : digitLead text = false) : pyLead Char.isDigit text = none := by
  unfold pyLead
  rw [if_neg]
  rintro ⟨hg, hw, -, -⟩
  have ht : digitLead text = true := by
    unfold digitLead
    rw [Bool.and_eq_true]
    refine ⟨?_, (takeWhile_space_ne_nil _).mp hw⟩
    simpa [List.isEmpty_iff] using hg
  rw [h] at ht
  cases ht

theorem words_to_num_pos (w : List Char) (n : Nat)
    (h : words_to_num w = some n) : 1 ≤ n := by
  unfold words_to_num at h
  repeat' split at h
  all_goals injection h
  all_goals omega

/-- Catch-all behaviour of the parser: when neither leading-quantity form
is present, the quantity defaults to 1 and the whole normalized text is
the item phrase. -/
theorem parse_default (t : List Char)
    (h1 : digitLead (strip (lowerAll t)) = false)
    (h2 : qwordLead (strip (lowerAll t)) = false) :
    parse_quantity_and_item t = (1, strip (lowerAll t)) := by
  unfold parse_quantity_and_item
  dsimp only
  rw [pyLead_none_of_digitLead _ h1]
  rcases ha : pyLead isLowerAlpha (strip (lowerAll t)) with - | ⟨g1, g2⟩
  · rfl
  · obtain ⟨hg1, -, hsp, -⟩ := pyLead_some _ _ _ _ ha
    have hw : words_to_num g1 = none := by
      unfold qwordLead at h2
      rw [Bool.and_eq_false_iff] at h2
      rcases h2 with h2 | h2
      · rw [hg1, ← Option.not_isSome_iff_eq_none, h2]
        simp
      · rw [hsp] at h2
        cases h2
    simp [hw]

/-! ### Idempotence of the `lower`/`strip` normalization -/

theorem char_toNat_ofNat (n : Nat) (h : n < 55296) : (Char.ofNat n).toNat = n := by
  rw [Char.ofNat, dif_pos (Or.inl h : Nat.isValidChar n)]
  simp [Char.ofNatAux, Char.toNat, UInt32.toNat]

theorem toLower_upper (c : Char) (h : 65 ≤ c.toNat ∧ c.toNat ≤ 90) :
    c.toLower = Char.ofNat (c.toNat + 32) := by
  unfold Char.toLower
  rw [if_pos h]

theorem toLower_not_upper (c : Char) (h : ¬(65 ≤ c.toNat ∧ c.toNat ≤ 90)) :
    c.toLower = c := by
  unfold Char.toLower
  rw [if_neg h]

theorem isSpace_of_toNat (x : Char)
    (h : x.toNat ≠ 32 ∧ x.toNat ≠ 9 ∧ x.toNat ≠ 10 ∧ x.toNat ≠ 13) :
    isSpace x = false := by
  unfold isSpace
  simp only [Bool.or_eq_false_iff, decide_eq_false_iff_not]
  refine ⟨⟨⟨?_, ?_⟩, ?_⟩, ?_⟩ <;> intro he <;> rw [he] at h
  · exact h.1 rfl
  · exact h.2.1 rfl
  · exact h.2.2.1 rfl
  · exact h.2.2.2 rfl

theorem isSpace_toLower (c : Char) : isSpace (Char.toLower c) = isSpace c := by
  by_cases h : 65 ≤ c.toNat ∧ c.toNat ≤ 90
  · rw [toLower_upper c h]
    have hof : (Char.ofNat (c.toNat + 32)).toNat = c.toNat + 32 :=
      char_toNat_ofNat _ (by omega)
    rw [isSpace_of_toNat _ (by rw [hof]; omega), isSpace_of_toNat c (by omega)]
  · rw [toLower_not_upper c h]

theorem toLower_toLower (c : Char) : (Char.toLower c).toLower = Char.toLower c := by
  by_cases h : 65 ≤ c.toNat ∧ c.toNat ≤ 90
  · rw [toLower_upper c h]
    apply toLower_not_upper
    rw [char_toNat_ofNat _ (by omega)]
    omega
  · rw [toLower_not_upper c h]
    exact toLower_not_upper c h

theorem lowerAll_idem (s : List Char) : lowerAll (lowerAll s) = lowerAll s := by
  unfold lowerAll
  rw [List.map_map]
  congr 1
  funext c
  exact toLower_toLower c

theorem strip_map_toLower (s : List Char) :
    strip (lowerAll s) = lowerAll (strip s) := by
  have hp : (isSpace ∘ Char.toLower) = isSpace := funext fun c => isSpace_toLower c
  unfold strip lowerAll
  rw [List.dropWhile_map, hp, ← List.map_reverse, List.dropWhile_map, hp,
    ← List.map_reverse]

theorem dropWhile_head_false (l : List Char)
    (h : ∀ c, l.head? = some c → isSpace c = false) :
    l.dropWhile isSpace = l := by
  cases l with
  | nil => rfl
  | cons c t =>
    rw [List.dropWhile_cons_of_neg]
    simp [h c rfl]

theorem strip_head_not_space (s : List Char) :
    ∀ c, (strip s).head? = some c → isSpace c = false := by
  intro c hc
  unfold strip at hc
  rw [List.head?_reverse] at hc
  have h2 : (List.reverse (s.dropWhile isSpace)).getLast? = some c := by
    conv_lhs => rw [← List.takeWhile_append_dropWhile isSpace
      (List.reverse (s.dropWhile isSpace))]
    rw [List.getLast?_append, hc]
    rfl
  rw [List.getLast?_reverse] at h2
  have H := List.head?_dropWhile_not isSpace s
  rw [h2] at H
  exact H

theorem strip_last_not_space (s : List Char) :
    ∀ c, (strip s).getLast? = some c → isSpace c = false := by
  intro c hc
  unfold strip at hc
  rw [List.getLast?_reverse] at hc
  have H := List.head?_dropWhile_not isSpace (List.reverse (s.dropWhile isSpace))
  rw [hc] at H
  exact H

theorem strip_eq_self (l : List Char)
    (h1 : ∀ c, l.head? = some c → isSpace c = false)
    (h2 : ∀ c, l.getLast? = some c → isSpace c = false) :
    strip l = l := by
  unfold strip
  rw [dropWhile_head_false l h1]
  rw [dropWhile_head_false l.reverse (by
    intro c hc
    rw [List.head?_reverse] at hc
    exact h2 c hc)]
  exact List.reverse_reverse l

theorem strip_idem (s : List Char) : strip (strip s) = strip s :=
  strip_eq_self _ (strip_head_not_space s) (strip_last_not_space s)

/-- The `.lower().strip()` normalization is idempotent, so the consumer
loop's pre-normalized text going through the parser's own normalization is
unchanged. -/
theorem norm_idem (s : List Char) :
    strip (lowerAll (strip (lowerAll s))) = strip (lowerAll s) := by
  rw [← strip_map_toLower, lowerAll_idem, strip_idem]

/-! ### Claims C2 and C4: the parser and the appended line items -/

/-- C2: `parse_quantity_and_item` maps `"3 coffee"` to `(3, "coffee")`,
`"two coffee"` to `(2, "coffee")` and `"coffee"` to `(1, "coffee")`; and
every input whose normalized text has neither a leading digit run followed
by whitespace nor a leading quantity word `one`..`ten` followed by
whitespace is parsed as quantity 1 with the entire normalized text as the
item phrase. -/
theorem claim_C2 :
    parse_quantity_and_item (("3 coffee").toList) = (3, ("coffee").toList) ∧
    parse_quantity_and_item (("two coffee").toList) = (2, ("coffee").toList) ∧
    parse_quantity_and_item (("coffee").toList) = (1, ("coffee").toList) ∧
    ∀ t : List Char, digitLead (strip (lowerAll t)) = false →
      qwordLead (strip (lowerAll t)) = false →
      parse_quantity_and_item t = (1, strip (lowerAll t)) :=
  ⟨by decide, by decide, by decide, fun t h1 h2 => parse_default t h1 h2⟩

/-- Witness for C2's universally quantified conjunct, at the concrete
input `"hello world"`. -/
theorem claim_C2_witness :
    digitLead (strip (lowerAll (("hello world").toList))) = false ∧
    qwordLead (strip (lowerAll (("hello world").toList))) = false ∧
    parse_quantity_and_item (("hello world").toList) =
      (1, strip (lowerAll (("hello world").toList))) :=
  ⟨by decide, by decide, claim_C2.2.2.2 (("hello world").toList) (by decide) (by decide)⟩

theorem parse_qty_cases (t : List Char) :
    1 ≤ (parse_quantity_and_item t).1 ∨
      ((strip (lowerAll t)).takeWhile Char.isDigit ≠ [] ∧
        digitsToNat ((strip (lowerAll t)).takeWhile Char.isDigit) = 0) := by
  unfold parse_quantity_and_item
  dsimp only
  split
  · rename_i g1 g2 hd
    obtain ⟨hg, hne, -, -⟩ := pyLead_some _ _ _ _ hd
    rcases Nat.eq_zero_or_pos (digitsToNat g1) with h0 | h1
    · right
      rw [← hg]
      exact ⟨hne, h0⟩
    · left
      exact h1
  · split
    · rename_i w1 w2 ha
      split
      · rename_i k hw
        left
        exact words_to_num_pos _ _ hw
      · left
        exact Nat.le_refl 1
    · left
      exact Nat.le_refl 1

/-- C4 (amended): the consumer loop either leaves the ledger unchanged or
appends exactly one line item whose `lineTotal` is `quantity * unitRate`;
the quantity is a nonnegative integer which is at least 1 in every case
except an utterance whose leading token is an explicit all-zero digit run
(such as `"0 coffee"`), where the appended quantity is 0. -/
theorem claim_C4 (ts : List Char) (st : AppState) (raw : List Char) :
    (processUtterance ts st raw).items = st.items ∨
    ∃ li : LineItem,
      (processUtterance ts st raw).items = st.items ++ [li] ∧
      li.lineTotal = (li.quantity : ℚ) * li.unitRate ∧
      (1 ≤ li.quantity ∨
        ((strip (lowerAll raw)).takeWhile Char.isDigit ≠ [] ∧
          digitsToNat ((strip (lowerAll raw)).takeWhile Char.isDigit) = 0)) := by
  unfold processUtterance
  dsimp only
  by_cases hpre : (("name ").toList).isPrefixOf (strip (lowerAll raw)) = true
  · rw [if_pos hpre]
    left
    rfl
  · rw [if_neg hpre]
    split
    · left
      rfl
    · split
      · right
        refine ⟨_, rfl, rfl, ?_⟩
        have h := parse_qty_cases (strip (lowerAll raw))
        rw [norm_idem] at h
        exact h
      · left
        rfl

/-- C4 counterexample: processing the utterance `"0 coffee"` against the
catalog `{coffee: 50}` appends a line item with quantity 0, refuting the
claim that every appended line item has a positive quantity. -/
theorem claim_C4_counterexample :
    ((processUtterance [] (initState (some [(("coffee").toList, 50)]))
        (("0 coffee").toList)).items.map fun li => li.quantity) = [0] := by
  decide

/-! ### Claim C1: the name directive -/

theorem removeNameAux_no_occ (fuel : Nat) (s : List Char)
    (h : hasNameOcc s = false) : removeNameAux fuel s = s := by
  induction fuel generalizing s with
  | zero => rfl
  | succ n ih =>
    cases s with
    | nil => rfl
    | cons c rest =>
      unfold hasNameOcc at h
      rw [Bool.or_eq_false_iff] at h
      unfold removeNameAux
      dsimp only
      rw [if_neg]
      · rw [ih rest h.2]
      · simp only [h.1]
        decide

theorem removeNameAux_lead (fuel : Nat) (r : List Char)
    (h : hasNameOcc r = false) :
    removeNameAux (fuel + 1) (("name ").toList ++ r) = r := by
  have he : (("name ").toList ++ r) = 'n' :: 'a' :: 'm' :: 'e' :: ' ' :: r := rfl
  rw [he]
  unfold removeNameAux
  dsimp only
  have hcond : (("name ").toList).isPrefixOf ('n' :: 'a' :: 'm' :: 'e' :: ' ' :: r) = true := by
    simp [List.isPrefixOf]
  rw [if_pos hcond]
  exact removeNameAux_no_occ fuel r h

theorem removeName_of_lead (r : List Char) (h : hasNameOcc r = false) :
    removeNameOcc (("name ").toList ++ r) = r := by
  have hlen : (("name ").toList ++ r).length = r.length + 4 + 1 := by
    rw [List.length_append]
    have h5 : ("name ").toList.length = 5 := rfl
    omega
  unfold removeNameOcc
  rw [hlen]
  exact removeNameAux_lead _ r h

/-- C1 (amended): on an utterance whose normalized text begins with
`"name "`, the consumer records as customer name the text with every
occurrence of `"name "` removed and trimmed, and touches no ledger state;
this equals the trimmed remainder after the prefix exactly when the
remainder contains no further occurrence of `"name "` (hypothesis `hno`),
which the counterexample shows is necessary. -/
theorem claim_C1 (ts : List Char) (st : AppState) (raw : List Char)
    (hpre : (("name ").toList).isPrefixOf (strip (lowerAll raw)) = true)
    (hno : hasNameOcc ((strip (lowerAll raw)).drop 5) = false) :
    (processUtterance ts st raw).customer_name =
      strip ((strip (lowerAll raw)).drop 5) ∧
    (processUtterance ts st raw).items = st.items := by
  unfold processUtterance
  dsimp only
  rw [if_pos hpre]
  refine ⟨?_, rfl⟩
  dsimp only
  obtain ⟨r, hr⟩ := List.isPrefixOf_iff_prefix.mp hpre
  have hdrop : (strip (lowerAll raw)).drop 5 = r := by
    rw [← hr]
    have h5 : (5 : Nat) = ("name ").toList.length := rfl
    rw [h5, List.drop_left]
  rw [hdrop] at hno ⊢
  rw [← hr, removeName_of_lead r hno]

/-- C1 counterexample: for the utterance `"name name bob"` the code sets
the customer name to `"bob"` (every `"name "` occurrence removed), not to
the trimmed remainder `"name bob"` after the first prefix, refuting the
claim for remainders that contain further `"name "` occurrences. -/
theorem claim_C1_counterexample :
    (("name ").toList).isPrefixOf (strip (lowerAll (("name name bob").toList))) = true ∧
    (processUtterance [] (initState none) (("name name bob").toList)).customer_name =
      ("bob").toList ∧
    (processUtterance [] (initState none) (("name name bob").toList)).customer_name ≠
      strip ((strip (lowerAll (("name name bob").toList))).drop 5) :=
  ⟨by decide, by decide, by decide⟩

/-- Witness for C1, at the concrete utterance `"name alice"`. -/
theorem claim_C1_witness :
    (("name ").toList).isPrefixOf (strip (lowerAll (("name alice").toList))) = true ∧
    (processUtterance [] (initState none) (("name alice").toList)).customer_name =
      strip ((strip (lowerAll (("name alice").toList))).drop 5) :=
  ⟨by decide,
    (claim_C1 [] (initState none) (("name alice").toList) (by decide) (by decide)).1⟩

/-! ### Claims C3 and C7: exact-match priority and cutoff rejection -/

/-- C3: a phrase whose normalized form is an exact catalog key resolves to
that key and its stored price, for every catalog and every cutoff; the
approximate-match path is never consulted, so no other key — however
similar — can override the exact match. -/
theorem claim_C3 (df : Catalog) (item : List Char) (c p : ℚ)
    (h : lookupPrice df (lowerAll (strip item)) = some p) :
    fuzzy_lookup item (some df) c = some (lowerAll (strip item), p) := by
  unfold fuzzy_lookup
  dsimp only
  rw [h]

/-- Witness for C3: `" Coffee "` normalizes to the exact key `"coffee"`
and resolves to its price 50, even though the cutoff would also admit the
similar key `"coffees"`. -/
theorem claim_C3_witness :
    lookupPrice [(("coffee").toList, 50), (("coffees").toList, 30)]
      (lowerAll (strip ((" Coffee ").toList))) = some 50 ∧
    fuzzy_lookup ((" Coffee ").toList)
      (some [(("coffee").toList, 50), (("coffees").toList, 30)]) (mkRat 3 5) =
      some (lowerAll (strip ((" Coffee ").toList)), 50) :=
  ⟨by decide, claim_C3 _ _ _ _ (by decide)⟩

theorem closeCandidates_nil (word : List Char) (poss : List (List Char)) (c : ℚ)
    (h : ∀ k ∈ poss, simRatio k word < c) :
    closeCandidates word poss c = [] := by
  unfold closeCandidates
  rw [List.filterMap_eq_nil_iff]
  intro x hx
  rw [if_neg]
  rintro ⟨-, -, hc⟩
  exact absurd hc (not_le.mpr (h x hx))

/-- C7: for a phrase that is not an exact catalog key and whose similarity
`ratio` to every catalog key is strictly below the cutoff, `fuzzy_lookup`
returns no match. -/
theorem claim_C7 (df : Catalog) (item : List Char) (c : ℚ)
    (hex : lookupPrice df (lowerAll (strip item)) = none)
    (h : ∀ k ∈ catKeys df, simRatio k (lowerAll (strip item)) < c) :
    fuzzy_lookup item (some df) c = none := by
  unfold fuzzy_lookup
  dsimp only
  rw [hex]
  unfold getCloseMatches1
  rw [closeCandidates_nil _ _ _ h]
  rfl

/-- Witness for C7: the spec's own example — phrase `"xyzxyz"` against the
catalog `{coffee: 50, tea: 30}` with cutoff `0.6`. -/
theorem claim_C7_witness :
    lookupPrice [(("coffee").toList, 50), (("tea").toList, 30)]
      (lowerAll (strip (("xyzxyz").toList))) = none ∧
    (∀ k ∈ catKeys [(("coffee").toList, 50), (("tea").toList, 30)],
      simRatio k (lowerAll (strip (("xyzxyz").toList))) < mkRat 3 5) ∧
    fuzzy_lookup (("xyzxyz").toList)
      (some [(("coffee").toList, 50), (("tea").toList, 30)]) (mkRat 3 5) = none :=
  ⟨by decide, by decide, claim_C7 _ _ _ (by decide) (by decide)⟩

/-! ### Claim C8: determinism and tie-breaking of the fuzzy matcher -/

theorem lexLt_irrefl (a : List Char) : lexLt a a = false := by
  induction a with
  | nil => rfl
  | cons x xs ih =>
    unfold lexLt
    rw [if_neg (Char.lt_irrefl x), if_neg (Char.lt_irrefl x)]
    exact ih

theorem lexLt_trans (a b c : List Char) (h1 : lexLt a b = true)
    (h2 : lexLt b c = true) : lexLt a c = true := by
  induction a generalizing b c with
  | nil =>
    cases b with
    | nil => cases h1
    | cons d ds =>
      cases c with
      | nil => cases h2
      | cons e es => rfl
  | cons x xs ih =>
    cases b with
    | nil => cases h1
    | cons d ds =>
      cases c with
      | nil => cases h2
      | cons e es =>
        unfold lexLt at h1 h2 ⊢
        by_cases hxd : x < d
        · by_cases hde : d < e
          · rw [if_pos (Char.lt_trans hxd hde)]
          · rw [if_neg hde] at h2
            by_cases hed : e < d
            · rw [if_pos hed] at h2
              cases h2
            · have hde' : d = e :=
                Char.le_antisymm (Char.not_lt.mp hed) (Char.not_lt.mp hde)
              rw [if_pos (hde' ▸ hxd)]
        · rw [if_neg hxd] at h1
          by_cases hdx : d < x
          · rw [if_pos hdx] at h1
            cases h1
          · rw [if_neg hdx] at h1
            have hxd' : x = d :=
              Char.le_antisymm (Char.not_lt.mp hdx) (Char.not_lt.mp hxd)
            by_cases hde : d < e
            · have hxe : x < e := by
                rw [hxd']
                exact hde
              rw [if_pos hxe]
            · rw [if_neg hde] at h2
              by_cases hed : e < d
              · rw [if_pos hed] at h2
                cases h2
              · rw [if_neg hed] at h2
                have hde' : d = e :=
                  Char.le_antisymm (Char.not_lt.mp hed) (Char.not_lt.mp hde)
                have hxe : ¬ x < e := by
                  rw [hxd', hde']
                  exact Char.lt_irrefl e
                have hex : ¬ e < x := by
                  rw [hxd', hde']
                  exact Char.lt_irrefl e
                rw [if_neg hxe, if_neg hex]
                exact ih ds es h1 h2

theorem lexLt_total (a b : List Char) :
    lexLt a b = true ∨ lexLt b a = true ∨ a = b := by
  induction a generalizing b with
  | nil =>
    cases b with
    | nil => exact Or.inr (Or.inr rfl)
    | cons d ds => exact Or.inl rfl
  | cons x xs ih =>
    cases b with
    | nil => exact Or.inr (Or.inl rfl)
    | cons d ds =>
      by_cases hxd : x < d
      · left
        unfold lexLt
        rw [if_pos hxd]
      · by_cases hdx : d < x
        · right
          left
          unfold lexLt
          rw [if_pos hdx]
        · have hxd' : x = d :=
            Char.le_antisymm (Char.not_lt.mp hdx) (Char.not_lt.mp hxd)
          rcases ih ds with h | h | h
          · left
            unfold lexLt
            rw [if_neg hxd, if_neg hdx]
            exact h
          · right
            left
            unfold lexLt
            rw [if_neg hdx, if_neg hxd]
            exact h
          · right
            right
            rw [hxd', h]

theorem pairLt_irrefl (p : ℚ × List Char) : ¬ pairLt p p := by
  rintro (h | ⟨-, h⟩)
  · exact lt_irrefl _ h
  · rw [lexLt_irrefl] at h
    cases h

theorem pairLt_trans {p q r : ℚ × List Char} (h1 : pairLt p q)
    (h2 : pairLt q r) : pairLt p r := by
  rcases h1 with h1 | ⟨e1, l1⟩ <;> rcases h2 with h2 | ⟨e2, l2⟩
  · exact Or.inl (lt_trans h1 h2)
  · exact Or.inl (e2 ▸ h1)
  · exact Or.inl (e1 ▸ h2)
  · exact Or.inr ⟨e1.trans e2, lexLt_trans _ _ _ l1 l2⟩

theorem pairLt_total (p q : ℚ × List Char) : pairLt p q ∨ pairLt q p ∨ p = q := by
  rcases lt_trichotomy p.1 q.1 with h | h | h
  · exact Or.inl (Or.inl h)
  · rcases lexLt_total p.2 q.2 with hl | hl | hl
    · exact Or.inl (Or.inr ⟨h, hl⟩)
    · exact Or.inr (Or.inl (Or.inr ⟨h.symm, hl⟩))
    · exact Or.inr (Or.inr (Prod.ext h hl))
  · exact Or.inr (Or.inl (Or.inl h))

theorem foldl_pick_mem (l : List (ℚ × List Char)) (p : ℚ × List Char) :
    l.foldl (fun acc q => if pairLt acc q then q else acc) p ∈ p :: l := by
  induction l generalizing p with
  | nil => exact List.mem_singleton.mpr rfl
  | cons x xs ih =>
    rw [List.foldl_cons]
    rcases List.mem_cons.mp (ih (if pairLt p x then x else p)) with h | h
    · rw [h]
      by_cases hc : pairLt p x
      · rw [if_pos hc]
        exact List.mem_cons_of_mem _ (List.mem_cons_self _ _)
      · rw [if_neg hc]
        exact List.mem_cons_self _ _
    · exact List.mem_cons_of_mem _ (List.mem_cons_of_mem _ h)

theorem foldl_pick_max (l : List (ℚ × List Char)) (p : ℚ × List Char) :
    ∀ q ∈ p :: l, ¬ pairLt (l.foldl (fun acc q => if pairLt acc q then q else acc) p) q := by
  induction l generalizing p with
  | nil =>
    intro q hq
    rw [List.mem_singleton] at hq
    rw [hq]
    exact pairLt_irrefl p
  | cons x xs ih =>
    intro q hq
    rw [List.foldl_cons]
    have hR := ih (if pairLt p x then x else p)
    have hRhead := hR _ (List.mem_cons_self _ _)
    rcases List.mem_cons.mp hq with hqp | hq'
    · rw [hqp]
      by_cases hc : pairLt p x
      · rw [if_pos hc] at hRhead ⊢
        intro hRq
        exact hRhead (pairLt_trans hRq hc)
      · rw [if_neg hc] at hRhead ⊢
        exact hRhead
    · rcases List.mem_cons.mp hq' with hqx | hq''
      · rw [hqx]
        by_cases hc : pairLt p x
        · rw [if_pos hc] at hRhead ⊢
          exact hRhead
        · rw [if_neg hc] at hRhead ⊢
          intro hRq
          rcases pairLt_total p x with hpx | hxp | hpx
          · exact hc hpx
          · exact hRhead (pairLt_trans hRq hxp)
          · rw [← hpx] at hRq
            exact hRhead hRq
      · by_cases hc : pairLt p x
        · rw [if_pos hc] at hR ⊢
          exact hR q (List.mem_cons_of_mem _ hq'')
        · rw [if_neg hc] at hR ⊢
          exact hR q (List.mem_cons_of_mem _ hq'')

theorem pickBest_spec (l : List (ℚ × List Char)) (m : ℚ × List Char)
    (h : pickBest l = some m) : m ∈ l ∧ ∀ q ∈ l, ¬ pairLt m q := by
  cases l with
  | nil => cases h
  | cons p ps =>
    unfold pickBest at h
    injection h with h'
    rw [← h']
    exact ⟨foldl_pick_mem ps p, fun q hq => foldl_pick_max ps p q hq⟩

/-- C8 (amended): `fuzzy_lookup` is deterministic (two runs on the same
catalog, phrase and cutoff agree), and when several catalog keys pass the
`get_close_matches` filter and tie at the best similarity score, the key
returned is maximal among them in the `(score, key)` ordering — for tied
scores the lexicographically largest key, not the smallest. -/
theorem claim_C8 (df : Catalog) (item : List Char) (c : ℚ) (k : List Char) (p : ℚ)
    (hex : lookupPrice df (lowerAll (strip item)) = none)
    (hres : fuzzy_lookup item (some df) c = some (k, p)) :
    fuzzy_lookup item (some df) c = fuzzy_lookup item (some df) c ∧
    ∀ k' ∈ catKeys df,
      (c ≤ realQuickRatio k' (lowerAll (strip item)) ∧
        c ≤ quickRatio k' (lowerAll (strip item)) ∧
        c ≤ simRatio k' (lowerAll (strip item))) →
      simRatio k' (lowerAll (strip item)) = simRatio k (lowerAll (strip item)) →
      lexLt k k' = false := by
  refine ⟨rfl, ?_⟩
  intro k' hk' hcond htie
  unfold fuzzy_lookup at hres
  dsimp only at hres
  rw [hex] at hres
  rcases hg : getCloseMatches1 (lowerAll (strip item)) (catKeys df) c with - | ⟨k0, rest⟩
  · rw [hg] at hres
    cases hres
  · rw [hg] at hres
    injection hres with hres'
    injection hres' with hk hp
    unfold getCloseMatches1 at hg
    rcases hp0 : pickBest (closeCandidates (lowerAll (strip item)) (catKeys df) c)
        with - | m0
    · rw [hp0] at hg
      cases hg
    · rw [hp0] at hg
      injection hg with hg1 hg2
      obtain ⟨hmem, hmax⟩ := pickBest_spec _ _ hp0
      obtain ⟨a, ha, hfa⟩ := List.mem_filterMap.mp hmem
      have hm0 : m0 = (simRatio a (lowerAll (strip item)), a) := by
        by_cases hca : c ≤ realQuickRatio a (lowerAll (strip item)) ∧
            c ≤ quickRatio a (lowerAll (strip item)) ∧
            c ≤ simRatio a (lowerAll (strip item))
        · rw [if_pos hca] at hfa
          exact (Option.some.inj hfa).symm
        · rw [if_neg hca] at hfa
          cases hfa
      have hk0a : k0 = a := by
        rw [hm0] at hg1
        exact hg1.symm
      have hscore : m0.1 = simRatio k (lowerAll (strip item)) := by
        rw [hm0]
        dsimp only
        rw [← hk0a, hk]
      have hq : (simRatio k' (lowerAll (strip item)), k') ∈
          closeCandidates (lowerAll (strip item)) (catKeys df) c := by
        refine List.mem_filterMap.mpr ⟨k', hk', ?_⟩
        rw [if_pos hcond]
      have hnot := hmax _ hq
      cases hlk : lexLt k k' with
      | false => rfl
      | true =>
        apply absurd _ hnot
        right
        constructor
        · rw [hscore, htie]
        · have hm02 : m0.2 = k := by
            rw [hm0]
            dsimp only
            rw [← hk0a, hk]
          rw [hm02, hlk]

/-- C8 counterexample: with catalog keys `"ax"` and `"bx"` both at
similarity 2/3 ≥ 0.6 to the phrase `"x"`, the code returns `"bx"` — the
lexicographically largest tied key — refuting the claim that the smallest
tied key is selected. -/
theorem claim_C8_counterexample :
    simRatio (("ax").toList) (("x").toList) = simRatio (("bx").toList) (("x").toList) ∧
    mkRat 3 5 ≤ simRatio (("ax").toList) (("x").toList) ∧
    fuzzy_lookup (("x").toList)
      (some [(("ax").toList, 1), (("bx").toList, 2)]) (mkRat 3 5) =
      some ((("bx").toList), 2) ∧
    (("ax").toList) ≠ (("bx").toList) := by
  refine ⟨by decide, by decide, by decide, by decide⟩

/-- Witness for C8, at the same two-key catalog: the returned key `"bx"`
is not lexicographically below the tied key `"ax"`. -/
theorem claim_C8_witness :
    lookupPrice [(("ax").toList, 1), (("bx").toList, 2)]
      (lowerAll (strip (("x").toList))) = none ∧
    (("ax").toList) ∈ catKeys [(("ax").toList, 1), (("bx").toList, 2)] ∧
    lexLt (("bx").toList) (("ax").toList) = false :=
  ⟨by decide, by decide,
    (claim_C8 [(("ax").toList, 1), (("bx").toList, 2)] (("x").toList) (mkRat 3 5)
        (("bx").toList) 2 (by decide) (by decide)).2
      (("ax").toList) (by decide) (by decide) (by decide)⟩

/-! ### Claim C6: the bounded log buffer -/

theorem add_log_lastN (ts txt : List Char) (E : List (List Char)) :
    add_log ts txt (E.drop (E.length - 20)) =
      (E ++ [mkEntry ts txt]).drop ((E ++ [mkEntry ts txt]).length - 20) := by
  unfold add_log
  dsimp only
  have hlen : (E ++ [mkEntry ts txt]).length = E.length + 1 := by
    simp
  by_cases h : E.length ≤ 19
  · have h0 : E.length - 20 = 0 := by omega
    have h1 : (E ++ [mkEntry ts txt]).length - 20 = 0 := by omega
    rw [h0, List.drop_zero, h1, List.drop_zero, if_neg]
    omega
  · have h20 : (E.drop (E.length - 20)).length = 20 := by
      rw [List.length_drop]
      omega
    rw [if_pos]
    · rw [List.drop_append_of_le_length (by omega),
        List.drop_append_of_le_length (by omega), List.drop_drop]
      have he : E.length - 20 + 1 = (E ++ [mkEntry ts txt]).length - 20 := by
        omega
      rw [he]
    · rw [List.length_append, h20]
      simp

theorem foldl_add_log (msgs : List (List Char × List Char)) (E : List (List Char)) :
    msgs.foldl (fun logs pr => add_log pr.1 pr.2 logs) (E.drop (E.length - 20)) =
      (E ++ msgs.map fun pr => mkEntry pr.1 pr.2).drop
        ((E ++ msgs.map fun pr => mkEntry pr.1 pr.2).length - 20) := by
  induction msgs generalizing E with
  | nil => simp
  | cons m ms ih =>
    rw [List.foldl_cons, add_log_lastN m.1 m.2 E]
    have hassoc : E ++ (ms.map fun pr => mkEntry pr.1 pr.2).cons (mkEntry m.1 m.2) =
        (E ++ [mkEntry m.1 m.2]) ++ ms.map fun pr => mkEntry pr.1 pr.2 := by
      simp
    rw [List.map_cons, hassoc]
    exact ih (E ++ [mkEntry m.1 m.2])

/-- C6: starting from the empty buffer, after any sequence of `add_log`
operations the buffer holds exactly the most recent (at most 20) entries
in arrival order — the suffix of the full entry sequence of length
`min 20 n` — so the bound `len ≤ 20` holds and eviction is FIFO. -/
theorem claim_C6 (msgs : List (List Char × List Char)) :
    (msgs.foldl (fun logs pr => add_log pr.1 pr.2 logs) []) =
      (msgs.map fun pr => mkEntry pr.1 pr.2).drop
        ((msgs.map fun pr => mkEntry pr.1 pr.2).length - 20) ∧
    (msgs.foldl (fun logs pr => add_log pr.1 pr.2 logs) []).length ≤ 20 := by
  have h := foldl_add_log msgs []
  simp only [List.nil_append, List.length_nil, Nat.zero_sub, List.drop_zero] at h
  refine ⟨h, ?_⟩
  rw [h, List.length_drop]
  omega

/-! ### Claim C5: the subtotal -/

theorem items_totalsOk (ts : List Char) (st : AppState) (raw : List Char)
    (h : ∀ li ∈ st.items, li.lineTotal = (li.quantity : ℚ) * li.unitRate) :
    ∀ li ∈ (processUtterance ts st raw).items,
      li.lineTotal = (li.quantity : ℚ) * li.unitRate := by
  unfold processUtterance
  dsimp only
  by_cases hpre : (("name ").toList).isPrefixOf (strip (lowerAll raw)) = true
  · rw [if_pos hpre]
    exact h
  · rw [if_neg hpre]
    split
    · exact h
    · split
      · intro li hli
        rcases List.mem_append.mp hli with hm | hm
        · exact h li hm
        · rw [List.mem_singleton] at hm
          rw [hm]
      · exact h

theorem runAll_totalsOk (msgs : List (List Char × List Char)) (st : AppState)
    (h : ∀ li ∈ st.items, li.lineTotal = (li.quantity : ℚ) * li.unitRate) :
    ∀ li ∈ (runAll st msgs).items,
      li.lineTotal = (li.quantity : ℚ) * li.unitRate := by
  induction msgs generalizing st with
  | nil => exact h
  | cons m ms ih =>
    unfold runAll
    rw [List.foldl_cons]
    exact ih (processUtterance m.1 st m.2) (items_totalsOk m.1 st m.2 h)

/-- C5: for every catalog and any sequence of utterances processed from
the initial empty state, the ledger subtotal (the sum of the stored
`lineTotal` fields) equals the sum of `quantity * rate` over the items;
and after the clearing performed by a successful bill export the subtotal
is 0. -/
theorem claim_C5 :
    (∀ (df : Option Catalog) (msgs : List (List Char × List Char)),
      subtotal ((runAll (initState df) msgs).items) =
        (((runAll (initState df) msgs).items).map
          fun li => (li.quantity : ℚ) * li.unitRate).sum) ∧
    (∀ (ts fname emsg : List Char) (st : AppState), st.items ≠ [] →
      subtotal ((print_bill ts fname emsg ExportOutcome.ok st).1.items) = 0) := by
  constructor
  · intro df msgs
    have h := runAll_totalsOk msgs (initState df) (by intro li hli; cases hli)
    unfold subtotal
    exact congrArg List.sum (List.map_congr_left h)
  · intro ts fname emsg st hne
    unfold print_bill
    rw [if_neg hne]
    rfl

/-- Witness for C5's second conjunct at a concrete one-item ledger. -/
theorem claim_C5_witness :
    ({ price_df := none, items := [⟨("coffee").toList, 2, 50, 100⟩], logs := [],
        customer_name := ("-").toList } : AppState).items ≠ [] ∧
    subtotal ((print_bill [] [] [] ExportOutcome.ok
      { price_df := none, items := [⟨("coffee").toList, 2, 50, 100⟩], logs := [],
        customer_name := ("-").toList }).1.items) = 0 :=
  ⟨by decide, claim_C5.2 [] [] []
    { price_df := none, items := [⟨("coffee").toList, 2, 50, 100⟩], logs := [],
      customer_name := ("-").toList } (by decide)⟩

/-! ### Claims C9 and C10: bill export -/

/-- C9: when the export step raises (either during PDF generation or when
opening the generated file), the failure is logged (preserving, not
clearing, the earlier log entries, up to FIFO eviction) and the line
items and customer name are left untouched; the ledger, logs and customer
context are cleared (customer reset to `"-"`) only on export success. -/
theorem claim_C9 (ts fname emsg : List Char) (st : AppState) (hne : st.items ≠ []) :
    ((print_bill ts fname emsg ExportOutcome.genFail st).1.items = st.items ∧
      (print_bill ts fname emsg ExportOutcome.genFail st).1.customer_name =
        st.customer_name ∧
      (print_bill ts fname emsg ExportOutcome.genFail st).1.logs =
        add_log ts ((("Print error: ").toList) ++ emsg) st.logs) ∧
    ((print_bill ts fname emsg ExportOutcome.openFail st).1.items = st.items ∧
      (print_bill ts fname emsg ExportOutcome.openFail st).1.customer_name =
        st.customer_name ∧
      (print_bill ts fname emsg ExportOutcome.openFail st).1.logs =
        add_log ts ((("Print error: ").toList) ++ emsg)
          (add_log ts ((("PDF Generated: ").toList) ++ fname) st.logs)) ∧
    ((print_bill ts fname emsg ExportOutcome.ok st).1.items = [] ∧
      (print_bill ts fname emsg ExportOutcome.ok st).1.logs = [] ∧
      (print_bill ts fname emsg ExportOutcome.ok st).1.customer_name =
        ("-").toList) := by
  unfold print_bill
  rw [if_neg hne, if_neg hne, if_neg hne]
  exact ⟨⟨rfl, rfl, rfl⟩, ⟨rfl, rfl, rfl⟩, rfl, rfl, rfl⟩

/-- Witness for C9 at a concrete nonempty ledger. -/
theorem claim_C9_witness :
    ({ price_df := none, items := [⟨("tea").toList, 1, 30, 30⟩], logs := [],
        customer_name := ("-").toList } : AppState).items ≠ [] ∧
    (print_bill [] [] [] ExportOutcome.genFail
      { price_df := none, items := [⟨("tea").toList, 1, 30, 30⟩], logs := [],
        customer_name := ("-").toList }).1.items = [⟨("tea").toList, 1, 30, 30⟩] :=
  ⟨by decide,
    (claim_C9 [] [] []
      { price_df := none, items := [⟨("tea").toList, 1, 30, 30⟩], logs := [],
        customer_name := ("-").toList } (by decide)).1.1⟩

/-- C10: pressing print with an empty ledger appends exactly the log entry
`"Cannot print empty bill."` (with FIFO eviction if the buffer is full),
produces no document, and leaves the ledger, customer name and catalog
unchanged, regardless of how the (never attempted) export would have
fared. -/
theorem claim_C10 (ts fname emsg : List Char) (o : ExportOutcome) (st : AppState)
    (he : st.items = []) :
    (print_bill ts fname emsg o st).1.items = st.items ∧
    (print_bill ts fname emsg o st).1.customer_name = st.customer_name ∧
    (print_bill ts fname emsg o st).1.price_df = st.price_df ∧
    (print_bill ts fname emsg o st).1.logs =
      add_log ts (("Cannot print empty bill.").toList) st.logs ∧
    (print_bill ts fname emsg o st).2 = false := by
  unfold print_bill
  rw [if_pos he]
  exact ⟨rfl, rfl, rfl, rfl, rfl⟩

/-- Witness for C10 at the empty initial state. -/
theorem claim_C10_witness :
    (initState none).items = [] ∧
    (print_bill [] [] [] ExportOutcome.ok (initState none)).1.logs =
      add_log [] (("Cannot print empty bill.").toList) (initState none).logs ∧
    (print_bill [] [] [] ExportOutcome.ok (initState none)).2 = false :=
  ⟨by decide,
    (claim_C10 [] [] [] ExportOutcome.ok (initState none) (by decide)).2.2.2.1,
    (claim_C10 [] [] [] ExportOutcome.ok (initState none) (by decide)).2.2.2.2⟩

end VoiceBill
